import Mathlib

/-
Verification of the Ngram operator (contrib_ops/cpu/ngram.cc) against its
natural-language specification.  The kernel's configuration parsing,
dictionary construction (Ngram::Ngram), extraction loops (Ngram::ComputeImpl),
output encoding (Ngram::OutputResult) and dispatch (Ngram::Compute) are
shallowly embedded below; machine integers are modelled as Int/Nat with
explicit modular conversion where the code converts, and fallible paths
(ONNXRUNTIME_ENFORCE, error Status) return Except.
-/

namespace OnnxNgram

/-- Output encoding mode of the Ngram kernel (ngram.cc `enum Mode`). -/
inductive Mode
  | kNone
  | kTF
  | kIDF
  | kTFIDF
deriving DecidableEq

/-- The C++ conversion of an `int64_t` to `size_t` (modular, width 64), used where
entries of `ngram_counts_` are assigned to `size_t start_idx` / `end_idx`. -/
def toSizeT (i : Int) : Nat := (i % ((2 : Int) ^ 64)).toNat

/-- Content equality of two n-gram keys: equal sizes and elementwise-equal tokens,
in order.  Translates `NGramItem<int64_t>::operator==` (which is
`std::vector<int64_t>::operator==`, i.e. size check plus elementwise comparison)
and `NGramItem<std::string>::operator==` (explicit size check, then `std::equal`
over the two item ranges with `std::equal_to<std::string>`). -/
def ngramContentEq {α : Type} [DecidableEq α] (a b : List α) : Bool :=
  if a.length = b.length then (a.zip b).all (fun p => decide (p.1 = p.2)) else false

/-- The pool sets `std::unordered_set<NGramItem<T>>` are modelled as
insertion-ordered lists of (id, content) pairs whose contents are pairwise
distinct; the set's hash is a pure function of the content, so every observable
behaviour of the set depends only on content equality.  `containsItems` is set
membership by content. -/
def containsItems {α : Type} [DecidableEq α] (dict : List (Nat × List α)) (items : List α) : Bool :=
  dict.any (fun e => ngramContentEq e.2 items)

/-- One `c.emplace(ngram_id, first, first + ngram_size)`: insertion into the
unordered set is a no-op when an entry with equal content is already present. -/
def setInsert {α : Type} [DecidableEq α] (dict : List (Nat × List α)) (id : Nat)
    (items : List α) : List (Nat × List α) :=
  if containsItems dict items then dict else dict ++ [(id, items)]

/-- The chunk of `len` pool tokens starting at `start` (the iterator range
`[first, first + ngram_size)` in `Emplace`). -/
def poolSlice {α : Type} (pool : List α) (start len : Nat) : List α :=
  (pool.drop start).take len

/-- The `Emplace` helper of ngram.cc: insert `ngrams` consecutive chunks of `sz`
tokens starting at `start`; `ngram_id` advances for every chunk, whether or not
the insertion grew the set.  Returns (next id, new set). -/
def emplaceSeg {α : Type} [DecidableEq α] (pool : List α) (sz : Nat) :
    Nat → Nat → Nat → List (Nat × List α) → Nat × List (Nat × List α)
  | 0, _, id, dict => (id, dict)
  | g + 1, start, id, dict =>
      emplaceSeg pool sz g (start + sz) (id + 1) (setInsert dict id (poolSlice pool start sz))

/-- The list of chunks a call `emplaceSeg pool sz g start ...` inserts, in order. -/
def chunksOf {α : Type} (pool : List α) (sz : Nat) : Nat → Nat → List (List α)
  | 0, _ => []
  | g + 1, start => poolSlice pool start sz :: chunksOf pool sz g (start + sz)

/-- The end index of the current length segment: the next entry of
`ngram_counts_` when one exists, the total pool size otherwise
(`end_idx = ((i + 1) < counts.size()) ? counts[i + 1] : total_items`). -/
def endOf (rest : List Int) (total : Nat) : Nat :=
  match rest with
  | [] => total
  | c2 :: _ => toSizeT c2

/-- The pool-partitioning loop of `Ngram::Ngram` (lines 319-340): one iteration
per entry of `ngram_counts_`, with the segment end taken from the next entry or
the total pool size; bounds check, multiplicity check, `Emplace`, and the
duplicate check that the set grew by exactly the number of chunks. -/
def buildLoop {α : Type} [DecidableEq α] (pool : List α) (total : Nat) :
    List Int → Nat → Nat → List (Nat × List α) → Except String (List (Nat × List α))
  | [], _, _, dict => .ok dict
  | c :: rest, sz, id, dict =>
    if toSizeT c ≤ endOf rest total ∧ endOf rest total ≤ total then
      if 0 < endOf rest total - toSizeT c then
        if (endOf rest total - toSizeT c) % sz = 0 then
          if (emplaceSeg pool sz ((endOf rest total - toSizeT c) / sz) (toSizeT c) id
                dict).2.length =
              dict.length + (endOf rest total - toSizeT c) / sz then
            buildLoop pool total rest (sz + 1)
              (emplaceSeg pool sz ((endOf rest total - toSizeT c) / sz) (toSizeT c) id dict).1
              (emplaceSeg pool sz ((endOf rest total - toSizeT c) / sz) (toSizeT c) id dict).2
          else .error "duplicate n-grams detected"
        else .error "Number of items must compose whole n-grams"
      else buildLoop pool total rest (sz + 1) id dict
    else .error "n-gram counts out of bounds"

/-- Dictionary construction from a pool and the `ngram_counts` offset table,
as run by the constructor: sizes start at 1, ids at 0, set empty. -/
def buildDict {α : Type} [DecidableEq α] (pool : List α) (counts : List Int) :
    Except String (List (Nat × List α)) :=
  buildLoop pool pool.length counts 1 0 []

/-- Some length segment of the pool, as carved by `buildLoop`, passes its bounds
and multiplicity checks yet contains two chunks with identical token content. -/
def hasDupSegment {α : Type} [DecidableEq α] (pool : List α) (total : Nat) :
    List Int → Nat → Prop
  | [], _ => False
  | c :: rest, sz =>
    (toSizeT c ≤ endOf rest total ∧ endOf rest total ≤ total ∧
      (endOf rest total - toSizeT c) % sz = 0 ∧
      ¬ (chunksOf pool sz ((endOf rest total - toSizeT c) / sz) (toSizeT c)).Nodup)
    ∨ hasDupSegment pool total rest (sz + 1)

/-- The attribute surface the constructor reads through `OpKernelInfo`; `none`
models an absent attribute (a non-OK `GetAttr`/`GetAttrs` status).  Weights are
modelled over ℚ: every weight value in the claims is exactly representable and
no claim concerns rounding. -/
structure NgramConfig where
  mode : Option String
  M : Option Int
  N : Option Int
  S : Option Int
  all : Option Int
  ngram_counts : Option (List Int)
  ngram_indexes : Option (List Int)
  weights : Option (List ℚ)
  pool_strings : Option (List String)
  pool_int64s : Option (List Int)

/-- The scalar/vector attributes validated before the pools are read. -/
structure PreImpl where
  mode : Mode
  M : Int
  N : Int
  S : Int
  all : Bool
  ngram_counts : List Int
  ngram_indexes : List Int
  weights : List ℚ

/-- The state `Ngram::Impl` holds after a successful construction. -/
structure NgramImpl where
  mode : Mode
  M : Int
  N : Int
  S : Int
  all : Bool
  ngram_counts : List Int
  ngram_indexes : List Int
  weights : List ℚ
  pool_strings : List String
  str_set : List (Nat × List String)
  int_set : List (Nat × List Int)

/-- Mode string parsing of `Ngram::Ngram` (remains `kNone` when unrecognized). -/
def parseMode (m : String) : Mode :=
  if m = "TF" then .kTF else if m = "IDF" then .kIDF
  else if m = "TFIDF" then .kTFIDF else .kNone

/-- The attribute checks of `Ngram::Ngram` up to and excluding the pools, in
source order.  Note the check guarding attribute `S` (ngram.cc line 286) tests
`N_ >= 0`, not `S >= 0`, exactly as the source does. -/
def ngramCtorPre (cfg : NgramConfig) : Except String PreImpl :=
  match cfg.mode with
  | none => .error "mode is required"
  | some m =>
    if parseMode m = Mode.kNone then .error "Unrecognized mode"
    else match cfg.M with
    | none => .error "Positive Attr M is required"
    | some Mv =>
      if ¬ (0 < Mv) then .error "Positive Attr M is required"
      else match cfg.N with
      | none => .error "Positive M >= N is required"
      | some Nv =>
        if ¬ (Mv ≤ Nv) then .error "Positive M >= N is required"
        else match cfg.S with
        | none => .error "Non-negative number of skips S is required"
        | some Sv =>
          if ¬ ((0 : Int) ≤ Nv) then .error "Non-negative number of skips S is required"
          else match cfg.all with
          | none => .error "Attribute all is required"
          | some a =>
            match cfg.ngram_counts with
            | none => .error "Non-empty ngram_counts is required"
            | some counts =>
              if counts = [] then .error "Non-empty ngram_counts is required"
              else match cfg.ngram_indexes with
              | none => .error "Non-empty ngram_indexes is required"
              | some idxs =>
                if idxs = [] then .error "Non-empty ngram_indexes is required"
                else match cfg.weights with
                | some w =>
                  if ¬ (w.length = idxs.length) then
                    .error "weights and indexes must have equal size"
                  else .ok ⟨parseMode m, Mv, Nv, Sv, a ≠ 0, counts, idxs, w⟩
                | none => .ok ⟨parseMode m, Mv, Nv, Sv, a ≠ 0, counts, idxs, []⟩

/-- Pool selection, pool partitioning and the final size check of `Ngram::Ngram`
(lines 306-347).  When `pool_strings` is supplied it is used and `pool_int64s`
is never read; the final check compares `int_set_.size()` with
`ngram_indexes_.size()` on the integer path but `pool_strings_.size()` (the raw
token count) on the string path, exactly as the source does. -/
def ngramCtorPool (cfg : NgramConfig) (pre : PreImpl) : Except String NgramImpl :=
  match cfg.pool_strings with
  | some ss =>
    if ss = [] then .error "pool_strings must not be empty if specified"
    else match buildDict ss pre.ngram_counts with
      | .error e => .error e
      | .ok sdict =>
        if ss.length = pre.ngram_indexes.length then
          .ok ⟨pre.mode, pre.M, pre.N, pre.S, pre.all, pre.ngram_counts,
               pre.ngram_indexes, pre.weights, ss, sdict, []⟩
        else .error "n-grams in the pool does not match ngram_indexes size"
  | none =>
    match cfg.pool_int64s with
    | none => .error "non-empty pool_int64s is required if pool_strings not provided"
    | some ps =>
      if ps = [] then .error "non-empty pool_int64s is required if pool_strings not provided"
      else match buildDict ps pre.ngram_counts with
        | .error e => .error e
        | .ok idict =>
          if idict.length = pre.ngram_indexes.length then
            .ok ⟨pre.mode, pre.M, pre.N, pre.S, pre.all, pre.ngram_counts,
                 pre.ngram_indexes, pre.weights, [], [], idict⟩
          else .error "n-grams in the pool does not match ngram_indexes size"

/-- The whole constructor `Ngram::Ngram`. -/
def ngramCtor (cfg : NgramConfig) : Except String NgramImpl :=
  match ngramCtorPre cfg with
  | .error e => .error e
  | .ok pre => ngramCtorPool cfg pre

/-- `Ngram::Impl::Find<T>`: look a sample up in the pool set by content; a hit
yields the entry's pool id. -/
def poolFind {α : Type} [DecidableEq α] (dict : List (Nat × List α)) (sample : List α) :
    Option Nat :=
  match dict.find? (fun e => ngramContentEq e.2 sample) with
  | some e => some e.1
  | none => none

/-- `Ngram::Impl::IncrementCount`: fetch `ngram_indexes_[ngram_id]`, enforce it
is non-negative, and increment the frequency at that slot.  An id beyond
`ngram_indexes_` and a slot beyond the frequency vector are undefined behaviour
in the release build (debug-only asserts); they are modelled as a default read
of 0 and an out-of-range `List.set` no-op; the theorems below only rely on
in-range executions. -/
def incrementCount (indexes : List Int) (id : Nat) (freq : List Nat) :
    Except String (List Nat) :=
  let outIdx := indexes.getD id 0
  if 0 ≤ outIdx then .ok (freq.set outIdx.toNat (freq.getD outIdx.toNat 0 + 1))
  else .error "ngram_indxes has a negative index"

/-- One probe of the extraction loops: `Find`, and on a hit `IncrementCount`;
a miss leaves the frequency vector unchanged and is not an error. -/
def probeSample {α : Type} [DecidableEq α] (dict : List (Nat × List α)) (indexes : List Int)
    (sample : List α) (freq : List Nat) : Except String (List Nat) :=
  match poolFind dict sample with
  | none => .ok freq
  | some id => incrementCount indexes id freq

/-- The unigram branch of `Ngram::ComputeImpl` (ni == 1): probe every single
input token in order. -/
def unigramLoop {α : Type} [DecidableEq α] (dict : List (Nat × List α)) (indexes : List Int) :
    List α → List Nat → Except String (List Nat)
  | [], freq => .ok freq
  | t :: rest, freq =>
    match probeSample dict indexes [t] freq with
    | .error e => .error e
    | .ok freq2 => unigramLoop dict indexes rest freq2

/-- The inner gathering loop `while (ngram_item < ngram_end) { AddItem; += si }`:
collect tokens at spacing `step` from `pos` while below `endIdx`.  The extra
fuel argument bounds the iteration count; every call below passes
`endIdx - pos`, which suffices whenever `step ≥ 1` (the source only runs this
loop with `si ≥ 1`). -/
def collectItems {α : Type} [Inhabited α] (input : List α) (step : Nat) :
    Nat → Nat → Nat → List α
  | 0, _, _ => []
  | fuel + 1, pos, endIdx =>
    if pos < endIdx then input.getD pos default :: collectItems input step fuel (pos + step) endIdx
    else []

/-- The window loop of `Ngram::ComputeImpl` for one (ni, si) pair: slide
`ngram_start` one raw position at a time, stop at the first start where the
window span `si*(ni-1)+1` no longer fits, gather the spaced window and probe.
The fuel argument bounds the iteration count; every call passes `total`,
which suffices since the loop advances `start` by one each time. -/
def strideLoop {α : Type} [DecidableEq α] [Inhabited α] (dict : List (Nat × List α))
    (indexes : List Int) (input : List α) (total ni si : Nat) :
    Nat → Nat → List Nat → Except String (List Nat)
  | 0, _, freq => .ok freq
  | gas + 1, start, freq =>
    if start < total then
      if start + si * (ni - 1) + 1 > total then .ok freq
      else
        match probeSample dict indexes
            (collectItems input si (start + si * (ni - 1) + 1 - start) start
              (start + si * (ni - 1) + 1)) freq with
        | .error e => .error e
        | .ok freq2 => strideLoop dict indexes input total ni si gas (start + 1) freq2
    else .ok freq

/-- A `for` loop accumulating through Except: runs the step on each element in
order, stopping at the first error. -/
def foldE {β γ : Type} (step : β → γ → Except String β) : List γ → β → Except String β
  | [], b => .ok b
  | x :: l, b =>
    match step b x with
    | .error e => .error e
    | .ok b2 => foldE step l b2

/-- The inclusive integer range `[lo, hi]` of a C++ `for (v = lo; v <= hi; ++v)`. -/
def intRange (lo hi : Int) : List Int := (List.range (hi + 1 - lo).toNat).map (fun k => lo + k)

/-- `Ngram::OutputResult`'s encoding of a frequency vector (lines 361-393).
The source's `case kTFIDF:` label sits textually inside the `case kIDF:` block,
but by C++ switch semantics a case label inside a nested compound statement is
still a jump target of the switch, and the `break` before it terminates the
kIDF case, so kTF, kIDF and kTFIDF are semantically sibling cases.  The kNone
branch is `assert(false)` (unreachable: construction rejects kNone); it is
modelled as an empty output. -/
def outputResult (mode : Mode) (w : List ℚ) (freq : List Nat) : List ℚ :=
  match mode with
  | .kTF => freq.map (fun (f : Nat) => (f : ℚ))
  | .kIDF =>
    if w = [] then freq.map (fun (f : Nat) => if 0 < f then (1 : ℚ) else 0)
    else (List.range freq.length).map (fun i => if 0 < freq.getD i 0 then w.getD i 0 else 0)
  | .kTFIDF =>
    if w = [] then freq.map (fun (f : Nat) => (f : ℚ))
    else (List.range freq.length).map (fun i => (freq.getD i 0 : ℚ) * w.getD i 0)
  | .kNone => []

/-- The frequency-accumulation part of `Ngram::ComputeImpl`: a zero frequency
vector sized to the pool set, then for each length `ni` in `[n, N]` (with
`n = all_ ? M_ : N_`) either the unigram loop or, for each stride `si` in
`[1, S_+1]`, the window loop.  The input is the already-flattened token
sequence (shape flattening in `Ngram::Compute` is outside the model). -/
def computeFreq {α : Type} [DecidableEq α] [Inhabited α] (dict : List (Nat × List α))
    (indexes : List Int) (M N S : Int) (allLens : Bool) (input : List α) :
    Except String (List Nat) :=
  foldE
    (fun freq ni =>
      if ni = 1 then unigramLoop dict indexes input freq
      else
        foldE
          (fun fr si =>
            strideLoop dict indexes input input.length ni.toNat si.toNat input.length 0 fr)
          (intRange 1 (S + 1)) freq)
    (intRange (if allLens then M else N) N)
    (List.replicate dict.length 0)

/-- `Ngram::ComputeImpl<int64_t>` / `<int32_t>` (both probe `int_set_`),
including the final `OutputResult` encoding. -/
def computeImplInt (impl : NgramImpl) (input : List Int) : Except String (List ℚ) :=
  match computeFreq impl.int_set impl.ngram_indexes impl.M impl.N impl.S impl.all input with
  | .error e => .error e
  | .ok freq => .ok (outputResult impl.mode impl.weights freq)

/-- `Ngram::ComputeImpl<std::string>`, probing `str_set_`. -/
def computeImplStr (impl : NgramImpl) (input : List String) : Except String (List ℚ) :=
  match computeFreq impl.str_set impl.ngram_indexes impl.M impl.N impl.S impl.all input with
  | .error e => .error e
  | .ok freq => .ok (outputResult impl.mode impl.weights freq)

/-- The value of an `int32_t` cell holding the integer `v` reduced modulo 2^32
(sign-extended); on in-range values this is the identity, and converting it to
`int64_t` (as `NGramItem<int32_t>` inherits `AddItem(int64_t)`) preserves it. -/
def sext32 (v : Int) : Int := (v + 2 ^ 31) % 2 ^ 32 - 2 ^ 31

/-- A runtime input tensor, already flattened: its element type and token data.
`unsupported` stands for any element type other than string/int32/int64
(e.g. float). -/
inductive NgramInput
  | i32 : List Int → NgramInput
  | i64 : List Int → NgramInput
  | str : List String → NgramInput
  | unsupported : NgramInput

/-- `Ngram::Compute`: dispatch on the input element type; int32 data is read as
32-bit values and widened to int64 against the same integer dictionary; any
other element type is an InvalidArgument error with no output produced. -/
def ngramCompute (impl : NgramImpl) (x : NgramInput) : Except String (List ℚ) :=
  match x with
  | .i32 xs => computeImplInt impl (xs.map sext32)
  | .i64 xs => computeImplInt impl xs
  | .str ss => computeImplStr impl ss
  | .unsupported => .error "Invalid type of the input argument"

/-- Configuration with a negative skip count and every other field valid
(mode TF, M = N = 1, one unigram pool entry, one output slot). -/
def cfgNegSkip : NgramConfig :=
  ⟨some "TF", some 1, some 1, some (-1), some 0, some [0], some [0], none, none, some [5]⟩

/-- String-pool configuration whose pool forms one bigram (two raw tokens) while
`ngram_indexes` has two entries. -/
def cfgStrBigram : NgramConfig :=
  ⟨some "TF", some 2, some 2, some 0, some 0, some [0, 0], some [0, 1], none,
   some ["a", "b"], none⟩

/-- Configuration supplying both a string pool and an integer pool. -/
def cfgBothPools : NgramConfig :=
  ⟨some "TF", some 1, some 1, some 0, some 0, some [0], some [0], none,
   some ["a"], some [5]⟩

/-- Unigram integer configuration with two pool entries both mapped to output
slot 0, so that `max(outputSlotOf) + 1 = 1` while the dictionary has 2 entries. -/
def cfgTwoToOneSlot : NgramConfig :=
  ⟨some "TF", some 1, some 1, some 0, some 0, some [0], some [0, 0], none, none,
   some [5, 6]⟩

/-- Scenario B of the spec: one configured integer bigram (1,3), M = N = 2,
S = 1, mode TF. -/
def cfgScenarioB : NgramConfig :=
  ⟨some "TF", some 2, some 2, some 1, some 0, some [0, 0], some [0], none, none,
   some [1, 3]⟩

/-- Scenario E of the spec: an integer pool containing the same bigram content
twice within one length segment. -/
def cfgScenarioE : NgramConfig :=
  ⟨some "TF", some 2, some 2, some 0, some 0, some [0, 0], some [0, 1], none, none,
   some [1, 3, 1, 3]⟩

/-- A small valid constructed state: one unigram pool entry 5 at output slot 0,
mode TF. -/
def implUnigram : NgramImpl :=
  ⟨Mode.kTF, 1, 1, 0, false, [0], [0], [], [], [], [(0, [5])]⟩

/-- Configuration supplying neither pool while every other attribute is valid. -/
def cfgNoPools : NgramConfig :=
  ⟨some "TF", some 1, some 1, some 0, some 0, some [0], some [0], none, none, none⟩

/-- The token-key content equality holds exactly when the two windows are equal
as lists: same length and elementwise-equal tokens in order. -/
theorem ngramContentEq_iff {α : Type} [DecidableEq α] :
    ∀ a b : List α, ngramContentEq a b = true ↔ a = b := by
  intro a
  induction a with
  | nil =>
    intro b
    cases b <;> simp [ngramContentEq]
  | cons x xs ih =>
    intro b
    cases b with
    | nil => simp [ngramContentEq]
    | cons y ys =>
      by_cases h : xs.length = ys.length
      · have hx := ih ys
        simp only [ngramContentEq, h, List.length_cons, if_pos, List.zip_cons_cons,
          List.all_cons, Bool.and_eq_true, decide_eq_true_eq] at hx ⊢
        constructor
        · rintro ⟨hxy, hrest⟩
          rw [hxy, hx.1 hrest]
        · intro he
          injection he with h1 h2
          subst h1
          subst h2
          exact ⟨rfl, hx.2 rfl⟩
      · simp only [ngramContentEq, List.length_cons]
        rw [if_neg (by omega)]
        constructor
        · intro he
          cases he
        · intro he
          injection he with h1 h2
          exact absurd (congrArg List.length h2) h

/-- C1: the specification requires construction to fail when the skip count S is
negative; ngram.cc line 286 instead tests `N_ >= 0` after reading `S`, so the
configuration with S = -1 and every other field valid constructs successfully. -/
theorem c1_negative_skip_accepted :
    (ngramCtor cfgNegSkip).isOk = true ∧ cfgNegSkip.S = some (-1) := by
  exact ⟨rfl, rfl⟩

/-- C2: for a string pool forming one bigram from two raw tokens with two output
slots configured, the final size check of ngram.cc line 345 compares the raw
string count `pool_strings_.size()` (2) with `ngram_indexes_.size()` (2) instead
of the built entry count, so construction succeeds with a dictionary of size 1
while `length(outputSlotOf)` is 2 — contradicting the claim that construction
succeeds only when the entry count equals `length(outputSlotOf)`. -/
theorem c2_string_pool_size_check_bug :
    (ngramCtor cfgStrBigram).map (fun i => i.str_set.length) = .ok 1 ∧
    cfgStrBigram.ngram_indexes = some [0, 1] := by
  exact ⟨rfl, rfl⟩

/-- C3 counterexample: a configuration supplying both a non-empty string pool
and a non-empty integer pool constructs successfully, contradicting the claim
that construction fails when both pools are supplied. -/
theorem c3_both_pools_counterexample :
    (ngramCtor cfgBothPools).isOk = true ∧ cfgBothPools.pool_strings = some ["a"] ∧
    cfgBothPools.pool_int64s = some [5] := by
  exact ⟨rfl, rfl, rfl⟩

/-- C3 amended: construction fails when neither pool is supplied; when a string
pool is supplied, the integer pool is never read (the string pool takes
precedence), so supplying both does not by itself make construction fail. -/
theorem c3_pool_selection_amended :
    (∀ cfg : NgramConfig, cfg.pool_strings = none → cfg.pool_int64s = none →
      ∃ e, ngramCtor cfg = .error e) ∧
    (∀ (cfg : NgramConfig) (ss : List String), cfg.pool_strings = some ss →
      ngramCtor cfg = ngramCtor { cfg with pool_int64s := none }) := by
  constructor
  · intro cfg hs hi
    unfold ngramCtor
    cases h : ngramCtorPre cfg with
    | error e => exact ⟨e, rfl⟩
    | ok pre =>
      unfold ngramCtorPool
      rw [hs, hi]
      exact ⟨_, rfl⟩
  · intro cfg ss hs
    cases cfg
    simp only at hs
    subst hs
    rfl

/-- Witness for the amended C3 statement at concrete configurations. -/
theorem c3_pool_selection_amended_witness :
    (∃ e, ngramCtor cfgNoPools = .error e) ∧
    ngramCtor cfgBothPools = ngramCtor { cfgBothPools with pool_int64s := none } :=
  ⟨c3_pool_selection_amended.1 cfgNoPools rfl rfl,
   c3_pool_selection_amended.2 cfgBothPools ["a"] rfl⟩

/-- C8 counterexample: the window (1,1) has length 2 > 1 yet equals its own
reverse, so reversing its content does not change its dictionary key identity. -/
theorem c8_palindrome_counterexample :
    ngramContentEq ([1, 1] : List Int) (([1, 1] : List Int).reverse) = true ∧
    1 < ([1, 1] : List Int).length := by
  exact ⟨rfl, by decide⟩

/-- C8 amended: token-key equality is order-sensitive — two windows are equal
iff they are equal as lists (same length, elementwise-equal tokens in order) —
and reversing a window of length > 1 whose content is not a palindrome changes
its dictionary key identity. -/
theorem c8_order_sensitivity_amended :
    (∀ (α : Type) [DecidableEq α] (a b : List α), ngramContentEq a b = true ↔ a = b) ∧
    (∀ w : List Int, 1 < w.length → w.reverse ≠ w → ngramContentEq w w.reverse = false) := by
  refine ⟨fun α _ a b => ngramContentEq_iff a b, fun w h1 h2 => ?_⟩
  rw [Bool.eq_false_iff]
  intro hc
  exact h2 ((ngramContentEq_iff w w.reverse).1 hc).symm

/-- Witness for the amended C8 statement at a concrete non-palindromic window. -/
theorem c8_order_sensitivity_amended_witness :
    ngramContentEq ([1, 2] : List Int) (([1, 2] : List Int).reverse) = false :=
  c8_order_sensitivity_amended.2 [1, 2] (by decide) (by decide)

/-- Element `i` of mapping a function over `List.range n`. -/
theorem getD_map_range {β : Type} (f : Nat → β) (n i : Nat) (d : β) (h : i < n) :
    ((List.range n).map f).getD i d = f i := by
  rw [List.getD_eq_getElem _ _ (by simpa using h)]
  simp

/-- Element `i` of a mapped list, read with `getD`, for an in-range index. -/
theorem getD_map_lt {β γ : Type} (f : β → γ) (l : List β) (i : Nat) (d : γ) (d' : β)
    (h : i < l.length) : (l.map f).getD i d = f (l.getD i d') := by
  rw [List.getD_eq_getElem _ _ (by simpa using h), List.getD_eq_getElem _ _ h]
  simp

/-- C5: the output encoder realises the §4.4 table with IDF and TFIDF as
independent sibling cases — TF yields the raw count (weights ignored), IDF
yields the weight (1.0 without weights) on a positive count and 0 otherwise,
TFIDF yields count times weight and degrades to the raw count without weights.
The `case kTFIDF:` label of ngram.cc sits textually inside the kIDF block, but
C++ switch semantics make it a reachable sibling case terminated by its own
`break`, which the embedded `outputResult` reflects. -/
theorem c5_output_encoder_table :
    ∀ (w : List ℚ) (freq : List Nat) (i : Nat), i < freq.length → w ≠ [] →
    (outputResult Mode.kTF w freq).getD i 0 = (freq.getD i 0 : ℚ) ∧
    (outputResult Mode.kIDF [] freq).getD i 0 = (if 0 < freq.getD i 0 then (1 : ℚ) else 0) ∧
    (outputResult Mode.kIDF w freq).getD i 0 =
      (if 0 < freq.getD i 0 then w.getD i 0 else 0) ∧
    (outputResult Mode.kTFIDF w freq).getD i 0 = (freq.getD i 0 : ℚ) * w.getD i 0 ∧
    (outputResult Mode.kTFIDF [] freq).getD i 0 = (freq.getD i 0 : ℚ) := by
  intro w freq i hi hw
  refine ⟨?_, ?_, ?_, ?_, ?_⟩
  · simp only [outputResult]
    exact getD_map_lt _ _ _ _ 0 hi
  · simp only [outputResult, if_pos rfl]
    exact getD_map_lt _ _ _ _ 0 hi
  · simp only [outputResult, if_neg hw]
    exact getD_map_range _ _ _ _ hi
  · simp only [outputResult, if_neg hw]
    exact getD_map_range _ _ _ _ hi
  · simp only [outputResult, if_pos rfl]
    exact getD_map_lt _ _ _ _ 0 hi

/-- Witness for C5 at a concrete frequency vector and weight vector. -/
theorem c5_output_encoder_table_witness :
    (outputResult Mode.kTF [2] [3]).getD 0 0 = (3 : ℚ) ∧
    (outputResult Mode.kIDF [] [3]).getD 0 0 = (if 0 < (3 : Nat) then (1 : ℚ) else 0) ∧
    (outputResult Mode.kIDF [2] [3]).getD 0 0 = (if 0 < (3 : Nat) then (2 : ℚ) else 0) ∧
    (outputResult Mode.kTFIDF [2] [3]).getD 0 0 = (3 : ℚ) * 2 ∧
    (outputResult Mode.kTFIDF [] [3]).getD 0 0 = (3 : ℚ) :=
  c5_output_encoder_table [2] [3] 0 (by decide) (by decide)

/-- Reading an integer representable in 32 bits back from an int32 cell is the
identity. -/
theorem sext32_eq_self {v : Int} (h1 : -(2 ^ 31) ≤ v) (h2 : v < 2 ^ 31) :
    sext32 v = v := by
  unfold sext32
  have ha : (0 : Int) ≤ v + 2 ^ 31 := by omega
  have hb : v + 2 ^ 31 < 2 ^ 32 := by omega
  rw [Int.emod_eq_of_lt ha hb]
  omega

/-- Mapping the int32 reinterpretation over a list of 32-bit-representable
integers is the identity. -/
theorem map_sext32_id :
    ∀ xs : List Int, (∀ v ∈ xs, -(2 ^ 31) ≤ v ∧ v < 2 ^ 31) → xs.map sext32 = xs := by
  intro xs
  induction xs with
  | nil => intro _; rfl
  | cons a l ih =>
    intro h
    simp only [List.map_cons]
    rw [sext32_eq_self (h a (by simp)).1 (h a (by simp)).2,
      ih (fun v hv => h v (by simp [hv]))]

/-- C10: for tokens representable in 32 bits, extracting from an int32 tensor
and from an int64 tensor holding the same values produces the same frequency
vector and the same output vector — the int32 key widens its tokens to int64
and probes the same integer dictionary. -/
theorem c10_int32_int64_equiv :
    ∀ (impl : NgramImpl) (xs : List Int),
      (∀ v ∈ xs, -(2 ^ 31) ≤ v ∧ v < 2 ^ 31) →
      computeFreq impl.int_set impl.ngram_indexes impl.M impl.N impl.S impl.all
          (xs.map sext32) =
        computeFreq impl.int_set impl.ngram_indexes impl.M impl.N impl.S impl.all xs ∧
      ngramCompute impl (.i32 xs) = ngramCompute impl (.i64 xs) := by
  intro impl xs h
  have hmap : xs.map sext32 = xs := map_sext32_id xs h
  constructor
  · rw [hmap]
  · simp only [ngramCompute, computeImplInt, hmap]

/-- Witness for C10 at a concrete dictionary state and input. -/
theorem c10_int32_int64_equiv_witness :
    ngramCompute implUnigram (.i32 [5]) = ngramCompute implUnigram (.i64 [5]) :=
  (c10_int32_int64_equiv implUnigram [5] (by decide)).2

/-- Constructing from a configuration and immediately running one extraction
call, propagating a construction error. -/
def ctorCompute (cfg : NgramConfig) (x : NgramInput) : Except String (List ℚ) :=
  match ngramCtor cfg with
  | .ok impl => ngramCompute impl x
  | .error e => .error e

/-- A successful frequency increment preserves the frequency vector's length. -/
theorem incrementCount_length (idx : List Int) (id : Nat) (freq f2 : List Nat)
    (h : incrementCount idx id freq = .ok f2) : f2.length = freq.length := by
  simp only [incrementCount] at h
  split at h
  · injection h with h'
    rw [← h']
    exact List.length_set freq _ _
  · cases h

/-- A successful probe preserves the frequency vector's length. -/
theorem probeSample_length {α : Type} [DecidableEq α] (dict : List (Nat × List α))
    (idx : List Int) (s : List α) (freq f2 : List Nat)
    (h : probeSample dict idx s freq = .ok f2) : f2.length = freq.length := by
  unfold probeSample at h
  cases hp : poolFind dict s with
  | none =>
    rw [hp] at h
    injection h with h'
    rw [← h']
  | some id =>
    rw [hp] at h
    exact incrementCount_length _ _ _ _ h

/-- A successful unigram pass preserves the frequency vector's length. -/
theorem unigramLoop_length {α : Type} [DecidableEq α] (dict : List (Nat × List α))
    (idx : List Int) :
    ∀ (input : List α) (freq f2 : List Nat),
      unigramLoop dict idx input freq = .ok f2 → f2.length = freq.length := by
  intro input
  induction input with
  | nil =>
    intro freq f2 h
    simp only [unigramLoop] at h
    injection h with h'
    rw [← h']
  | cons t rest ih =>
    intro freq f2 h
    simp only [unigramLoop] at h
    cases hp : probeSample dict idx [t] freq with
    | error e =>
      rw [hp] at h
      cases h
    | ok freq2 =>
      rw [hp] at h
      exact (ih freq2 f2 h).trans (probeSample_length _ _ _ _ _ hp)

/-- A successful window pass preserves the frequency vector's length. -/
theorem strideLoop_length {α : Type} [DecidableEq α] [Inhabited α]
    (dict : List (Nat × List α)) (idx : List Int) (input : List α) (total ni si : Nat) :
    ∀ (gas start : Nat) (freq f2 : List Nat),
      strideLoop dict idx input total ni si gas start freq = .ok f2 →
      f2.length = freq.length := by
  intro gas
  induction gas with
  | zero =>
    intro start freq f2 h
    simp only [strideLoop] at h
    injection h with h'
    rw [← h']
  | succ g ih =>
    intro start freq f2 h
    simp only [strideLoop] at h
    split at h
    · split at h
      · injection h with h'
        rw [← h']
      · cases hp : probeSample dict idx
            (collectItems input si (start + si * (ni - 1) + 1 - start) start
              (start + si * (ni - 1) + 1)) freq with
        | error e =>
          rw [hp] at h
          cases h
        | ok freq2 =>
          rw [hp] at h
          exact (ih (start + 1) freq2 f2 h).trans (probeSample_length _ _ _ _ _ hp)
    · injection h with h'
      rw [← h']

/-- A property preserved by every successful step of `foldE` is preserved by a
successful whole fold. -/
theorem foldE_pres {β γ : Type} (step : β → γ → Except String β) (P : β → Prop) :
    ∀ (l : List γ) (b b2 : β),
      (∀ b' x b'', step b' x = .ok b'' → P b' → P b'') →
      foldE step l b = .ok b2 → P b → P b2 := by
  intro l
  induction l with
  | nil =>
    intro b b2 _ h hb
    simp only [foldE] at h
    injection h with h'
    rw [← h']
    exact hb
  | cons x rest ih =>
    intro b b2 hstep h hb
    simp only [foldE] at h
    cases hs : step b x with
    | error e =>
      rw [hs] at h
      cases h
    | ok bmid =>
      rw [hs] at h
      exact ih bmid b2 hstep h (hstep b x bmid hs hb)

/-- A successful frequency extraction yields a vector sized to the pool set. -/
theorem computeFreq_length {α : Type} [DecidableEq α] [Inhabited α]
    (dict : List (Nat × List α)) (idx : List Int) (M N S : Int) (allLens : Bool)
    (input : List α) (freq : List Nat)
    (h : computeFreq dict idx M N S allLens input = .ok freq) :
    freq.length = dict.length := by
  unfold computeFreq at h
  refine foldE_pres _ (fun b : List Nat => b.length = dict.length) _ _ _ ?_ h (by simp)
  intro b' ni b'' hs hb
  split at hs
  · exact (unigramLoop_length _ _ _ _ _ hs).trans hb
  · refine foldE_pres _ (fun b : List Nat => b.length = dict.length) _ _ _ ?_ hs hb
    intro c' si c'' hcs hc
    exact (strideLoop_length _ _ _ _ _ _ _ _ _ _ hcs).trans hc

/-- For every reachable mode the output encoding preserves the vector length. -/
theorem outputResult_length (mode : Mode) (w : List ℚ) (freq : List Nat)
    (h : mode ≠ Mode.kNone) : (outputResult mode w freq).length = freq.length := by
  cases mode with
  | kNone => exact absurd rfl h
  | kTF => simp [outputResult]
  | kIDF =>
    simp only [outputResult]
    split <;> simp
  | kTFIDF =>
    simp only [outputResult]
    split <;> simp

/-- C4 counterexample: with two dictionary entries both mapped to output slot 0,
one extraction call on input [5] produces the output vector [1, 0] of length 2,
while `max(outputSlotOf) + 1 = 1`; the claim's stated output length is wrong. -/
theorem c4_max_slot_counterexample :
    ctorCompute cfgTwoToOneSlot (.i64 [5]) = .ok [1, 0] ∧
    cfgTwoToOneSlot.ngram_indexes = some [0, 0] ∧
    ([0, 0] : List Int).foldr max 0 + 1 = 1 := by
  exact ⟨rfl, rfl, rfl⟩

/-- C4 amended: one extraction call produces a frequency vector and an output
float vector whose length equals the number of dictionary entries
(`dictionary.size()`, the pool set size — which on the valid integer-pool path
equals `length(outputSlotOf)`), not `max(outputSlotOf) + 1`. -/
theorem c4_output_length_amended :
    ∀ impl : NgramImpl, impl.mode ≠ Mode.kNone →
      (∀ (xs : List Int) (out : List ℚ),
        ngramCompute impl (.i64 xs) = .ok out → out.length = impl.int_set.length) ∧
      (∀ (xs : List Int) (out : List ℚ),
        ngramCompute impl (.i32 xs) = .ok out → out.length = impl.int_set.length) ∧
      (∀ (ss : List String) (out : List ℚ),
        ngramCompute impl (.str ss) = .ok out → out.length = impl.str_set.length) := by
  intro impl hm
  refine ⟨?_, ?_, ?_⟩
  · intro xs out h
    simp only [ngramCompute, computeImplInt] at h
    cases hc : computeFreq impl.int_set impl.ngram_indexes impl.M impl.N impl.S impl.all xs with
    | error e =>
      rw [hc] at h
      cases h
    | ok freq =>
      rw [hc] at h
      injection h with h'
      rw [← h', outputResult_length _ _ _ hm]
      exact computeFreq_length _ _ _ _ _ _ _ _ hc
  · intro xs out h
    simp only [ngramCompute, computeImplInt] at h
    cases hc : computeFreq impl.int_set impl.ngram_indexes impl.M impl.N impl.S impl.all
        (xs.map sext32) with
    | error e =>
      rw [hc] at h
      cases h
    | ok freq =>
      rw [hc] at h
      injection h with h'
      rw [← h', outputResult_length _ _ _ hm]
      exact computeFreq_length _ _ _ _ _ _ _ _ hc
  · intro ss out h
    simp only [ngramCompute, computeImplStr] at h
    cases hc : computeFreq impl.str_set impl.ngram_indexes impl.M impl.N impl.S impl.all ss with
    | error e =>
      rw [hc] at h
      cases h
    | ok freq =>
      rw [hc] at h
      injection h with h'
      rw [← h', outputResult_length _ _ _ hm]
      exact computeFreq_length _ _ _ _ _ _ _ _ hc

/-- The constructed state corresponding to `cfgTwoToOneSlot`. -/
def implTwoSlot : NgramImpl :=
  ⟨Mode.kTF, 1, 1, 0, false, [0], [0, 0], [], [], [], [(0, [5]), (1, [6])]⟩

/-- Witness for the amended C4 statement at a concrete state and input. -/
theorem c4_output_length_amended_witness :
    ([1, 0] : List ℚ).length = implTwoSlot.int_set.length :=
  (c4_output_length_amended implTwoSlot (by decide)).1 [5] [1, 0] (by rfl)

/-- The slot fetched for any id is non-negative when every configured slot is. -/
theorem getD_nonneg (idx : List Int) (id : Nat) (h : ∀ ix ∈ idx, 0 ≤ ix) :
    0 ≤ idx.getD id 0 := by
  by_cases hlt : id < idx.length
  · rw [List.getD_eq_getElem _ _ hlt]
    exact h _ (List.getElem_mem hlt)
  · rw [List.getD_eq_default]
    omega

/-- A frequency increment succeeds whenever every configured slot is
non-negative. -/
theorem incrementCount_ok (idx : List Int) (id : Nat) (freq : List Nat)
    (h : ∀ ix ∈ idx, 0 ≤ ix) : ∃ f2, incrementCount idx id freq = .ok f2 := by
  unfold incrementCount
  rw [if_pos (getD_nonneg idx id h)]
  exact ⟨_, rfl⟩

/-- A probe never errors — a dictionary miss leaves the vector unchanged — when
every configured slot is non-negative. -/
theorem probeSample_ok {α : Type} [DecidableEq α] (dict : List (Nat × List α))
    (idx : List Int) (s : List α) (freq : List Nat) (h : ∀ ix ∈ idx, 0 ≤ ix) :
    ∃ f2, probeSample dict idx s freq = .ok f2 := by
  unfold probeSample
  cases hp : poolFind dict s with
  | none => exact ⟨freq, rfl⟩
  | some id => exact incrementCount_ok idx id freq h

/-- The unigram pass never errors under non-negative slots. -/
theorem unigramLoop_ok {α : Type} [DecidableEq α] (dict : List (Nat × List α))
    (idx : List Int) (h : ∀ ix ∈ idx, 0 ≤ ix) :
    ∀ (input : List α) (freq : List Nat), ∃ f2, unigramLoop dict idx input freq = .ok f2 := by
  intro input
  induction input with
  | nil => exact fun freq => ⟨freq, rfl⟩
  | cons t rest ih =>
    intro freq
    obtain ⟨fmid, hmid⟩ := probeSample_ok dict idx [t] freq h
    obtain ⟨f2, h2⟩ := ih fmid
    refine ⟨f2, ?_⟩
    simp only [unigramLoop]
    rw [hmid]
    exact h2

/-- The window pass never errors under non-negative slots. -/
theorem strideLoop_ok {α : Type} [DecidableEq α] [Inhabited α]
    (dict : List (Nat × List α)) (idx : List Int) (input : List α) (total ni si : Nat)
    (h : ∀ ix ∈ idx, 0 ≤ ix) :
    ∀ (gas start : Nat) (freq : List Nat),
      ∃ f2, strideLoop dict idx input total ni si gas start freq = .ok f2 := by
  intro gas
  induction gas with
  | zero => exact fun start freq => ⟨freq, rfl⟩
  | succ g ih =>
    intro start freq
    simp only [strideLoop]
    split
    · split
      · exact ⟨freq, rfl⟩
      · obtain ⟨fmid, hmid⟩ := probeSample_ok dict idx
          (collectItems input si (start + si * (ni - 1) + 1 - start) start
            (start + si * (ni - 1) + 1)) freq h
        obtain ⟨f2, h2⟩ := ih (start + 1) fmid
        refine ⟨f2, ?_⟩
        rw [hmid]
        exact h2
    · exact ⟨freq, rfl⟩

/-- A fold whose every step succeeds succeeds. -/
theorem foldE_ok {β γ : Type} (step : β → γ → Except String β)
    (hstep : ∀ b x, ∃ b2, step b x = .ok b2) :
    ∀ (l : List γ) (b : β), ∃ b2, foldE step l b = .ok b2 := by
  intro l
  induction l with
  | nil => exact fun b => ⟨b, rfl⟩
  | cons x rest ih =>
    intro b
    obtain ⟨bmid, hmid⟩ := hstep b x
    obtain ⟨b2, h2⟩ := ih bmid
    refine ⟨b2, ?_⟩
    simp only [foldE]
    rw [hmid]
    exact h2

/-- Frequency extraction never errors under non-negative slots. -/
theorem computeFreq_ok {α : Type} [DecidableEq α] [Inhabited α]
    (dict : List (Nat × List α)) (idx : List Int) (M N S : Int) (allLens : Bool)
    (input : List α) (h : ∀ ix ∈ idx, 0 ≤ ix) :
    ∃ freq, computeFreq dict idx M N S allLens input = .ok freq := by
  unfold computeFreq
  refine foldE_ok _ ?_ _ _
  intro b ni
  split
  · exact unigramLoop_ok dict idx h input b
  · exact foldE_ok _ (fun (c : List Nat) (si : Int) =>
      strideLoop_ok dict idx input input.length ni.toNat si.toNat h input.length 0 c) _ b

/-- C9: a call whose input element type is not string/int32/int64 returns the
InvalidArgument error with no output produced (and, the embedding being pure,
the dictionary argument is untouched); for the supported types a dictionary
lookup miss is never an error — under the intended non-negative output slots a
call always returns ok, whatever the input tokens. -/
theorem c9_unsupported_type_invalid_argument :
    ∀ (impl : NgramImpl) (xs ys : List Int) (ss : List String),
      ngramCompute impl .unsupported = .error "Invalid type of the input argument" ∧
      ((∀ ix ∈ impl.ngram_indexes, 0 ≤ ix) →
        (ngramCompute impl (.i64 xs)).isOk = true ∧
        (ngramCompute impl (.i32 ys)).isOk = true ∧
        (ngramCompute impl (.str ss)).isOk = true) := by
  intro impl xs ys ss
  refine ⟨rfl, fun h => ⟨?_, ?_, ?_⟩⟩
  · simp only [ngramCompute, computeImplInt]
    obtain ⟨freq, hf⟩ :=
      computeFreq_ok impl.int_set impl.ngram_indexes impl.M impl.N impl.S impl.all xs h
    rw [hf]
    rfl
  · simp only [ngramCompute, computeImplInt]
    obtain ⟨freq, hf⟩ :=
      computeFreq_ok impl.int_set impl.ngram_indexes impl.M impl.N impl.S impl.all
        (ys.map sext32) h
    rw [hf]
    rfl
  · simp only [ngramCompute, computeImplStr]
    obtain ⟨freq, hf⟩ :=
      computeFreq_ok impl.str_set impl.ngram_indexes impl.M impl.N impl.S impl.all ss h
    rw [hf]
    rfl

/-- Witness for C9 at a concrete state: an input containing the miss token 9
still returns ok. -/
theorem c9_unsupported_type_invalid_argument_witness :
    ngramCompute implUnigram .unsupported = .error "Invalid type of the input argument" ∧
    (ngramCompute implUnigram (.i64 [5, 9])).isOk = true ∧
    (ngramCompute implUnigram (.i32 [5])).isOk = true ∧
    (ngramCompute implUnigram (.str ["a"])).isOk = true :=
  ⟨(c9_unsupported_type_invalid_argument implUnigram [5, 9] [5] ["a"]).1,
   (c9_unsupported_type_invalid_argument implUnigram [5, 9] [5] ["a"]).2 (by decide)⟩

/-- With the loop position at or past the end, the gathering loop yields
nothing, whatever fuel remains. -/
theorem collectItems_nil {α : Type} [Inhabited α] (input : List α) (si pos endIdx : Nat)
    (h : ¬ pos < endIdx) : ∀ fuel, collectItems input si fuel pos endIdx = [] := by
  intro fuel
  cases fuel with
  | zero => rfl
  | succ f => simp [collectItems, h]

/-- For a window of `n + 1` tokens at spacing `si ≥ 1` whose end is exactly
`pos + si * n + 1`, the gathering loop collects exactly the tokens at
`pos, pos + si, …, pos + si * n`. -/
theorem collectItems_eq_map {α : Type} [Inhabited α] (input : List α) (si : Nat)
    (hsi : 1 ≤ si) :
    ∀ (n pos fuel endIdx : Nat), endIdx = pos + si * n + 1 → endIdx - pos ≤ fuel →
      collectItems input si fuel pos endIdx =
        (List.range (n + 1)).map (fun k => input.getD (pos + si * k) default) := by
  intro n
  induction n with
  | zero =>
    intro pos fuel endIdx he hf
    subst he
    simp only [Nat.mul_zero, Nat.add_zero] at hf ⊢
    cases fuel with
    | zero => omega
    | succ f =>
      simp only [collectItems, if_pos (by omega : pos < pos + 1)]
      rw [collectItems_nil input si (pos + si) (pos + 1) (by omega) f]
      simp [List.range_succ]
  | succ m ih =>
    intro pos fuel endIdx he hf
    have hm : si * (m + 1) = si * m + si := Nat.mul_succ si m
    cases fuel with
    | zero => omega
    | succ f =>
      have hpos : pos < endIdx := by omega
      simp only [collectItems, if_pos hpos]
      rw [ih (pos + si) f endIdx (by omega) (by omega)]
      conv_rhs => rw [List.range_succ_eq_map, List.map_cons, List.map_map]
      have hhead : input.getD (pos + si * 0) default = input.getD pos default := by
        simp
      rw [hhead]
      have htail : List.map ((fun k => input.getD (pos + si * k) default) ∘ Nat.succ)
          (List.range (m + 1)) =
          List.map (fun k => input.getD (pos + si + si * k) default) (List.range (m + 1)) := by
        apply List.map_congr_left
        intro k hk
        simp only [Function.comp_apply]
        have hidx : pos + si * (k + 1) = pos + si + si * k := by
          rw [Nat.mul_succ]
          ring
        rw [Nat.succ_eq_add_one, hidx]
      rw [htail]

/-- The window loop for one (length, stride) pair equals the fold, over every
start position in `[start, total)` at which the window span fits, of one probe
with the `ni` tokens taken at spacing `si` from that start; the loop advances
the start by one raw position each time. -/
theorem strideLoop_eq_foldE {α : Type} [DecidableEq α] [Inhabited α]
    (dict : List (Nat × List α)) (idx : List Int) (input : List α) (total ni si : Nat)
    (hsi : 1 ≤ si) (hni : 1 ≤ ni) :
    ∀ (gas start : Nat) (freq : List Nat), total - start ≤ gas →
      strideLoop dict idx input total ni si gas start freq =
        foldE
          (fun fr s => probeSample dict idx
            ((List.range ni).map (fun k => input.getD (s + si * k) default)) fr)
          ((List.range' start (total - start)).filter
            (fun s => decide (s + si * (ni - 1) + 1 ≤ total)))
          freq := by
  intro gas
  induction gas with
  | zero =>
    intro start freq hg
    have h0 : total - start = 0 := by omega
    rw [h0]
    rfl
  | succ g ih =>
    intro start freq hg
    by_cases hlt : start < total
    · by_cases hfit : start + si * (ni - 1) + 1 > total
      · have hfilter : (List.range' start (total - start)).filter
            (fun s => decide (s + si * (ni - 1) + 1 ≤ total)) = [] := by
          rw [List.filter_eq_nil_iff]
          intro a ha
          rw [List.mem_range'_1] at ha
          simp only [decide_eq_true_eq]
          have hastep : si * (ni - 1) ≥ 0 := Nat.zero_le _
          omega
        rw [hfilter]
        simp only [strideLoop, if_pos hlt, if_pos hfit]
        rfl
      · push_neg at hfit
        have hrange : List.range' start (total - start) =
            start :: List.range' (start + 1) (total - start - 1) := by
          have h1 : total - start = (total - start - 1) + 1 := by omega
          conv_lhs => rw [h1]
          rw [List.range'_succ]
        rw [hrange]
        rw [List.filter_cons_of_pos (by simpa using hfit)]
        simp only [strideLoop, if_pos hlt,
          if_neg (by omega : ¬ start + si * (ni - 1) + 1 > total)]
        have hw : collectItems input si (start + si * (ni - 1) + 1 - start) start
            (start + si * (ni - 1) + 1) =
            (List.range ni).map (fun k => input.getD (start + si * k) default) := by
          have := collectItems_eq_map input si hsi (ni - 1) start
            (start + si * (ni - 1) + 1 - start) (start + si * (ni - 1) + 1) rfl (by omega)
          rw [this, (by omega : ni - 1 + 1 = ni)]
        rw [hw]
        simp only [foldE]
        cases hp : probeSample dict idx
            ((List.range ni).map (fun k => input.getD (start + si * k) default)) freq with
        | error e => rfl
        | ok f2 =>
          show strideLoop dict idx input total ni si g (start + 1) f2 =
            foldE
              (fun fr s => probeSample dict idx
                ((List.range ni).map (fun k => input.getD (s + si * k) default)) fr)
              ((List.range' (start + 1) (total - start - 1)).filter
                (fun s => decide (s + si * (ni - 1) + 1 ≤ total)))
              f2
          rw [ih (start + 1) f2 (by omega)]
          have h2 : total - (start + 1) = total - start - 1 := by omega
          rw [h2]
    · have h0 : total - start = 0 := by omega
      rw [h0]
      simp only [strideLoop, if_neg hlt]
      rfl

/-- C6: for every length and every stride at least 1, the extractor's window
loop probes the dictionary exactly once per start position in `[0, total)`
where the window span `si * (ni - 1) + 1` fits, with the window of `ni` tokens
taken at spacing `si` from that start, advancing the start by one raw position
each time; and on Scenario B (pool [1,3] as one bigram, M = N = 2, S = 1, mode
TF) input [1,2,3] yields output [1] through the stride-2 window (1,3). -/
theorem c6_skipgram_window_enumeration :
    (∀ (α : Type) [DecidableEq α] [Inhabited α] (dict : List (Nat × List α))
       (idx : List Int) (input : List α) (ni si : Nat) (freq : List Nat),
       1 ≤ si → 1 ≤ ni →
       strideLoop dict idx input input.length ni si input.length 0 freq =
         foldE
           (fun fr s => probeSample dict idx
             ((List.range ni).map (fun k => input.getD (s + si * k) default)) fr)
           ((List.range input.length).filter
             (fun s => decide (s + si * (ni - 1) + 1 ≤ input.length)))
           freq) ∧
    ctorCompute cfgScenarioB (.i64 [1, 2, 3]) = .ok [1] := by
  constructor
  · intro α _ _ dict idx input ni si freq hsi hni
    have := strideLoop_eq_foldE dict idx input input.length ni si hsi hni input.length 0 freq
      (by omega)
    simp only [Nat.sub_zero] at this
    rw [← List.range_eq_range'] at this
    exact this
  · rfl

/-- Witness for C6 at the Scenario B dictionary and input: length 2, stride 2. -/
theorem c6_skipgram_window_enumeration_witness :
    strideLoop [(0, [1, 3])] [0] ([1, 2, 3] : List Int) 3 2 2 3 0 [0] =
      foldE
        (fun fr s => probeSample [(0, [1, 3])] [0]
          ((List.range 2).map (fun k => ([1, 2, 3] : List Int).getD (s + 2 * k) default)) fr)
        ((List.range 3).filter (fun s => decide (s + 2 * (2 - 1) + 1 ≤ 3)))
        [0] :=
  c6_skipgram_window_enumeration.1 Int [(0, [1, 3])] [0] [1, 2, 3] 2 2 [0]
    (by decide) (by decide)

/-- Set insertion preserves membership by content. -/
theorem containsItems_setInsert_mono {α : Type} [DecidableEq α] (dict : List (Nat × List α))
    (id : Nat) (items x : List α) (h : containsItems dict x = true) :
    containsItems (setInsert dict id items) x = true := by
  unfold setInsert
  split
  · exact h
  · unfold containsItems at h ⊢
    rw [List.any_append]
    simp [h]

/-- After inserting an item its content is a member of the set. -/
theorem containsItems_setInsert_self {α : Type} [DecidableEq α] (dict : List (Nat × List α))
    (id : Nat) (items : List α) : containsItems (setInsert dict id items) items = true := by
  unfold setInsert
  split
  · assumption
  · unfold containsItems
    rw [List.any_append]
    simp only [List.any_cons, List.any_nil, Bool.or_false]
    rw [(ngramContentEq_iff items items).2 rfl]
    simp

/-- Set insertion grows the set by at most one entry. -/
theorem setInsert_length_le {α : Type} [DecidableEq α] (dict : List (Nat × List α))
    (id : Nat) (items : List α) : (setInsert dict id items).length ≤ dict.length + 1 := by
  unfold setInsert
  split
  · omega
  · simp

/-- Inserting content that is already a member leaves the set size unchanged. -/
theorem setInsert_length_of_contains {α : Type} [DecidableEq α] (dict : List (Nat × List α))
    (id : Nat) (items : List α) (h : containsItems dict items = true) :
    (setInsert dict id items).length = dict.length := by
  unfold setInsert
  rw [if_pos h]

/-- `Emplace` grows the set by at most the number of chunks. -/
theorem emplaceSeg_length_le {α : Type} [DecidableEq α] (pool : List α) (sz : Nat) :
    ∀ (g start id : Nat) (dict : List (Nat × List α)),
      (emplaceSeg pool sz g start id dict).2.length ≤ dict.length + g := by
  intro g
  induction g with
  | zero => intro start id dict; simp [emplaceSeg]
  | succ m ih =>
    intro start id dict
    simp only [emplaceSeg]
    calc (emplaceSeg pool sz m (start + sz) (id + 1)
        (setInsert dict id (poolSlice pool start sz))).2.length
        ≤ (setInsert dict id (poolSlice pool start sz)).length + m := ih _ _ _
      _ ≤ dict.length + 1 + m := by
          have := setInsert_length_le dict id (poolSlice pool start sz)
          omega
      _ = dict.length + (m + 1) := by omega

/-- If some chunk's content is already in the set, `Emplace` grows the set by
strictly fewer entries than the number of chunks. -/
theorem emplaceSeg_length_lt_of_contains {α : Type} [DecidableEq α] (pool : List α)
    (sz : Nat) :
    ∀ (g start id : Nat) (dict : List (Nat × List α)) (c : List α),
      c ∈ chunksOf pool sz g start → containsItems dict c = true →
      (emplaceSeg pool sz g start id dict).2.length < dict.length + g := by
  intro g
  induction g with
  | zero =>
    intro start id dict c hc _
    simp [chunksOf] at hc
  | succ m ih =>
    intro start id dict c hc hin
    simp only [chunksOf, List.mem_cons] at hc
    simp only [emplaceSeg]
    rcases hc with hc | hc
    · have heq : (setInsert dict id (poolSlice pool start sz)).length = dict.length := by
        apply setInsert_length_of_contains
        rw [hc] at hin
        exact hin
      calc (emplaceSeg pool sz m (start + sz) (id + 1)
          (setInsert dict id (poolSlice pool start sz))).2.length
          ≤ (setInsert dict id (poolSlice pool start sz)).length + m := emplaceSeg_length_le _ _ _ _ _ _
        _ = dict.length + m := by rw [heq]
        _ < dict.length + (m + 1) := by omega
    · have hin2 : containsItems (setInsert dict id (poolSlice pool start sz)) c = true :=
        containsItems_setInsert_mono _ _ _ _ hin
      calc (emplaceSeg pool sz m (start + sz) (id + 1)
          (setInsert dict id (poolSlice pool start sz))).2.length
          < (setInsert dict id (poolSlice pool start sz)).length + m := ih _ _ _ c hc hin2
        _ ≤ dict.length + 1 + m := by
            have := setInsert_length_le dict id (poolSlice pool start sz)
            omega
        _ = dict.length + (m + 1) := by omega

/-- If the chunk list of a segment contains a duplicate, `Emplace` grows the set
by strictly fewer entries than the number of chunks — so the constructor's
size check fails. -/
theorem emplaceSeg_length_lt_of_dup {α : Type} [DecidableEq α] (pool : List α) (sz : Nat) :
    ∀ (g start id : Nat) (dict : List (Nat × List α)),
      ¬ (chunksOf pool sz g start).Nodup →
      (emplaceSeg pool sz g start id dict).2.length < dict.length + g := by
  intro g
  induction g with
  | zero =>
    intro start id dict hdup
    exfalso
    apply hdup
    simp [chunksOf]
  | succ m ih =>
    intro start id dict hdup
    simp only [chunksOf, List.nodup_cons, not_and_or, not_not] at hdup
    simp only [emplaceSeg]
    rcases hdup with hmem | hdup
    · have hin2 : containsItems (setInsert dict id (poolSlice pool start sz))
          (poolSlice pool start sz) = true := containsItems_setInsert_self _ _ _
      calc (emplaceSeg pool sz m (start + sz) (id + 1)
          (setInsert dict id (poolSlice pool start sz))).2.length
          < (setInsert dict id (poolSlice pool start sz)).length + m :=
            emplaceSeg_length_lt_of_contains pool sz m (start + sz) (id + 1) _ _ hmem hin2
        _ ≤ dict.length + 1 + m := by
            have := setInsert_length_le dict id (poolSlice pool start sz)
            omega
        _ = dict.length + (m + 1) := by omega
    · calc (emplaceSeg pool sz m (start + sz) (id + 1)
          (setInsert dict id (poolSlice pool start sz))).2.length
          < (setInsert dict id (poolSlice pool start sz)).length + m := ih _ _ _ hdup
        _ ≤ dict.length + 1 + m := by
            have := setInsert_length_le dict id (poolSlice pool start sz)
            omega
        _ = dict.length + (m + 1) := by omega

/-- If any length segment carved by `buildLoop` contains duplicate chunk
content, the loop fails, whatever the incoming set and id. -/
theorem buildLoop_error_of_dup {α : Type} [DecidableEq α] (pool : List α) (total : Nat) :
    ∀ (counts : List Int) (sz id : Nat) (dict : List (Nat × List α)),
      hasDupSegment pool total counts sz →
      ∃ e, buildLoop pool total counts sz id dict = .error e := by
  intro counts
  induction counts with
  | nil =>
    intro sz id dict h
    exact absurd h (by simp [hasDupSegment])
  | cons c rest ih =>
    intro sz id dict h
    simp only [hasDupSegment] at h
    simp only [buildLoop]
    by_cases hb : toSizeT c ≤ endOf rest total ∧ endOf rest total ≤ total
    · rw [if_pos hb]
      by_cases hpos : 0 < endOf rest total - toSizeT c
      · rw [if_pos hpos]
        by_cases hmod : (endOf rest total - toSizeT c) % sz = 0
        · rw [if_pos hmod]
          by_cases hdup : (chunksOf pool sz ((endOf rest total - toSizeT c) / sz)
              (toSizeT c)).Nodup
          · have htail : hasDupSegment pool total rest (sz + 1) := by
              rcases h with h1 | h2
              · exact absurd hdup h1.2.2.2
              · exact h2
            split
            · exact ih (sz + 1) _ _ htail
            · exact ⟨_, rfl⟩
          · have hlt := emplaceSeg_length_lt_of_dup pool sz
              ((endOf rest total - toSizeT c) / sz) (toSizeT c) id dict hdup
            rw [if_neg (by omega)]
            exact ⟨_, rfl⟩
        · rw [if_neg hmod]
          exact ⟨_, rfl⟩
      · rw [if_neg hpos]
        have htail : hasDupSegment pool total rest (sz + 1) := by
          rcases h with h1 | h2
          · have hz : endOf rest total - toSizeT c = 0 := by omega
            rw [hz] at h1
            exact absurd (by simp [chunksOf] : (chunksOf pool sz (0 / sz)
              (toSizeT c)).Nodup) h1.2.2.2
          · exact h2
        exact ih (sz + 1) _ _ htail
    · rw [if_neg hb]
      exact ⟨_, rfl⟩

/-- C7: whenever a length segment of the pool contains two chunks with
identical token content, dictionary construction fails rather than building a
dictionary; in particular Scenario E (integer pool [1,3,1,3] carved into two
identical bigrams) makes the whole constructor fail. -/
theorem c7_duplicate_ngram_rejected :
    (∀ (α : Type) [DecidableEq α] (pool : List α) (counts : List Int),
      hasDupSegment pool pool.length counts 1 →
      ∃ e, buildDict pool counts = .error e) ∧
    ngramCtor cfgScenarioE = .error "duplicate n-grams detected" := by
  constructor
  · intro α _ pool counts h
    exact buildLoop_error_of_dup pool pool.length counts 1 0 [] h
  · rfl

/-- Witness for C7 at the Scenario E pool: segment 2 (bigrams) of [1,3,1,3]
consists of the chunk (1,3) twice. -/
theorem c7_duplicate_ngram_rejected_witness :
    ∃ e, buildDict ([1, 3, 1, 3] : List Int) [0, 0] = .error e :=
  c7_duplicate_ngram_rejected.1 Int [1, 3, 1, 3] [0, 0] (by
    simp only [hasDupSegment]
    right
    left
    refine ⟨by decide, by decide, by decide, by decide⟩)

end OnnxNgram
